import Mathlib

/-!
Verification of the Espora append-only paged log store and the rinha-2024
credit/debit ledger built on top of it, against a shallow embedding of the
Rust sources (espora-db/src/page.rs, espora-db/src/tokio.rs,
espora-db/src/lib.rs, rinha-espora-embedded/src/main.rs,
rinha-espora-server/src/main.rs, rinha-espora-server/src/ring_buffer.rs,
src/lib.rs).

Conventions of the embedding:
* bytes are `Nat` (every reachable state stores values < 256);
* `usize` arithmetic that can underflow uses the checked semantics: a Rust
  panic (or the abort that follows wrap-around in an allocation size) is
  modelled as `none` / `.panic`;
* `i64` arithmetic is modelled as `Int` with explicit two's-complement
  wrap-around (`wrap64`), the release-profile Rust semantics;
* file I/O is modelled as a pure byte list plus the writer position; the
  row serializer (the external `bitcode` crate) is a parameter.
-/

namespace Espora

/-- Big-endian byte list (length `k`) of `n`; `u64::to_be_bytes` is `beBytes 8`. -/
def beBytes : Nat → Nat → List Nat
  | 0, _ => []
  | k + 1, n => beBytes k (n / 256) ++ [n % 256]

/-- Model of `u64::from_be_bytes`: fold a big-endian byte list back into a number. -/
def beVal (l : List Nat) : Nat :=
  l.foldl (fun acc b => acc * 256 + b) 0

/-- Model of `espora_db::page::Page` (page.rs): the byte buffer plus the free counter. -/
structure Page where
  data : List Nat
  free : Nat
deriving Repr, DecidableEq

/-- Model of `Page::new` (page.rs). -/
def Page.new : Page := ⟨[], 4096⟩

/-- The slot scan of `Page::from_bytes` (page.rs): number of leading slots of
stride `R` that lie entirely inside `data` and whose first 8 bytes are not all
zero.  The `iter::from_fn … .last().unwrap_or(0)` loop stops at the first
empty or out-of-range slot, so only the leading run counts. -/
def leadingRows (R : Nat) (data : List Nat) : Nat :=
  if h : R = 0 ∨ data.length < R then 0
  else if data.take 8 = List.replicate 8 0 then 0
  else 1 + leadingRows R (data.drop R)
termination_by data.length
decreasing_by
  push_neg at h
  simp only [List.length_drop]
  omega

/-- Model of `Page::from_bytes` (page.rs): keep the whole input buffer as `data`, and
set `free = 4096 − (#leading occupied slots)·R`. -/
def Page.fromBytes (R : Nat) (data : List Nat) : Page :=
  ⟨data, 4096 - leadingRows R data * R⟩

/-- The espora-db error vocabulary relevant to page appends.  `noSpace` is the
error the specification claims for a full page; the code has no such
constructor and never produces it. -/
inductive PageError
  | noSpace
  | serialization
deriving Repr, DecidableEq

/-- Outcome of `Page::insert` on the already-serialized payload: the Rust
function either returns `Ok` or dies in an arithmetic-underflow panic.
`err` exists only as vocabulary for claimed error returns. -/
inductive InsertOutcome
  | ok (p : Page)
  | panic
  | err (e : PageError)
deriving Repr, DecidableEq

/-- Write `blk` into `data` at offset `off`, zero-filling any gap and
extending at the end: the `Cursor`/`Write` semantics used by `Page::insert`. -/
def writeAt (data : List Nat) (off : Nat) (blk : List Nat) : List Nat :=
  data.take off ++ List.replicate (off - data.length) 0 ++ blk
    ++ data.drop (off + blk.length)

/-- The bytes of one occupied slot: 8-byte big-endian length, payload, zero
padding out to stride `R`. -/
def slotBytes (R : Nat) (payload : List Nat) : List Nat :=
  beBytes 8 payload.length ++ payload ++ List.replicate (R - (8 + payload.length)) 0

/-- Model of `Page::insert` (page.rs), applied to the already-serialized payload.  The
code seeks to `4096 - free`, writes the length prefix, the payload and the
padding, and decrements `free` by what it wrote.  If `8 + |payload| > R` the
padding length `R - (len + 8)` underflows, and if `free < R` the `free`
decrement underflows: both are panics.  There is no free-space check and no
`NoSpace` return anywhere. -/
def Page.insert (R : Nat) (p : Page) (payload : List Nat) : InsertOutcome :=
  if 8 + payload.length > R then .panic
  else if p.free < R then .panic
  else .ok ⟨writeAt p.data (4096 - p.free) (slotBytes R payload), p.free - R⟩

/-- Model of `Page::rows` (page.rs): yield the occupied payloads in order, stopping at
the first slot whose 8-byte length prefix is zero or when fewer than `R`
bytes remain.  (`R = 0` would loop forever in Rust and is never used.) -/
def rowsFrom (R : Nat) (data : List Nat) : List (List Nat) :=
  if h : R = 0 ∨ data.length < R then []
  else
    let row := data.take R
    let size := beVal (row.take 8)
    if size = 0 then []
    else (row.drop 8).take size :: rowsFrom R (data.drop R)
termination_by data.length
decreasing_by
  push_neg at h
  simp only [List.length_drop]
  omega

/-- Model of `Page::rows` as a function of the page. -/
def Page.rows (R : Nat) (p : Page) : List (List Nat) := rowsFrom R p.data

/-- Model of `Page::len` (page.rs). -/
def Page.len (p : Page) : Nat := p.data.length

/-- Model of `Page::available_rows` (page.rs): computed from the buffer length, not
from the `free` counter. -/
def Page.availableRows (R : Nat) (p : Page) : Nat := (4096 - p.data.length) / R

/-- Model of `espora_db::tokio::Db` modulo the file handles: file contents, writer
position and the resident tail page.  The `sync_write` flag only controls
fsync and has no effect on the byte-level state. -/
structure Db where
  file : List Nat
  pos : Nat
  page : Page
deriving Repr, DecidableEq

/-- Model of `tokio::Db::from_path` (tokio.rs): if the file holds at least 4096 bytes,
read its final 4096 bytes as the tail page and park the writer at the start
of that page; otherwise seek to the end and start with an empty tail page. -/
def Db.fromPath (R : Nat) (file : List Nat) : Db :=
  if 4096 ≤ file.length then
    ⟨file, file.length - 4096,
      Page.fromBytes R ((file.drop (file.length - 4096)).take 4096)⟩
  else
    ⟨file, file.length, Page.new⟩

/-- Model of `tokio::Db::insert` (tokio.rs): insert into the tail page, write the page
bytes plus zero padding out to 4096 at the writer position, then either roll
to a fresh page (when no slot is left) or seek back 4096 bytes.  `none`
models the panics: the page-insert panics and the
`vec![0; PAGE_SIZE - len]` underflow.  The trailing `seek(End(-4096))`
cannot fail after a 4096-byte write (the final branch is unreachable). -/
def Db.insert (R : Nat) (st : Db) (payload : List Nat) : Option Db :=
  match Page.insert R st.page payload with
  | .ok p' =>
    if 4096 < p'.data.length then none
    else
      let file' := writeAt st.file st.pos
        (p'.data ++ List.replicate (4096 - p'.data.length) 0)
      if Page.availableRows R p' = 0 then
        some ⟨file', st.pos + 4096, Page.new⟩
      else if 4096 ≤ file'.length then
        some ⟨file', file'.length - 4096, p'⟩
      else none
  | _ => none

/-- Sequential inserts, stopping at the first failure. -/
def Db.insertAll (R : Nat) : Db → List (List Nat) → Option Db
  | st, [] => some st
  | st, x :: xs =>
    match Db.insert R st x with
    | some st' => Db.insertAll R st' xs
    | none => none

/-- Model of `tokio::Db::pages` (tokio.rs), closed form of the loop: for
`k = 0, 1, …` the seek to `4096·k` always succeeds and the 4096-byte
`read_exact` succeeds exactly while `4096·(k+1) ≤ len`, so the stream yields
the first `len / 4096` aligned pages. -/
def Db.pages (R : Nat) (st : Db) : List Page :=
  (List.range (st.file.length / 4096)).map
    (fun k => Page.fromBytes R ((st.file.drop (4096 * k)).take 4096))

/-- Model of `tokio::Db::pages_reverse` (tokio.rs), closed form: for cursor
`k = 1, 2, …` the seek to `end − 4096·k` succeeds while `4096·k ≤ len`, and
the 4096-byte read there always succeeds, so the stream yields the windows
`[len − 4096·k, len − 4096·k + 4096)` for `k = 1 … len / 4096`. -/
def Db.pagesReverse (R : Nat) (st : Db) : List Page :=
  (List.range (st.file.length / 4096)).map
    (fun i => Page.fromBytes R ((st.file.drop (st.file.length - 4096 * (i + 1))).take 4096))

/-- Model of `tokio::Db::rows` at the payload-byte level (each yielded item is fed to
`bitcode::deserialize` and surfaced as a per-row `DbResult`). -/
def Db.rows (R : Nat) (st : Db) : List (List Nat) :=
  (Db.pages R st).flatMap (fun p => Page.rows R p)

/-- Model of `tokio::Db::rows_reverse` at the payload-byte level: each page's rows are
collected and yielded reversed. -/
def Db.rowsReverse (R : Nat) (st : Db) : List (List Nat) :=
  (Db.pagesReverse R st).flatMap (fun p => (Page.rows R p).reverse)

/-- Model of `tokio::Db::rows` after deserialization: every row is yielded, decode
failures included (as `none`). -/
def Db.rowsDecoded {α : Type _} (R : Nat) (dec : List Nat → Option α) (st : Db) :
    List (Option α) :=
  (Db.rows R st).map dec

/-- The blocking variant's `Page` (lib.rs): only the buffer, no free counter. -/
structure BPage where
  data : List Nat
deriving Repr, DecidableEq

/-- Blocking `Page::new` (lib.rs). -/
def BPage.new : BPage := ⟨[]⟩

/-- Blocking `Page::insert` (lib.rs): append the length prefix, the payload
and the padding at the end of the buffer (`Write for Vec<u8>` appends).
`vec![0; R - (len + 8)]` underflows (panics) when the payload does not fit;
there is no free-space check of any kind. -/
def BPage.insert (R : Nat) (p : BPage) (payload : List Nat) : Option BPage :=
  if 8 + payload.length > R then none
  else some ⟨p.data ++ slotBytes R payload⟩

/-- Blocking `Page::available_rows` (lib.rs). -/
def BPage.availableRows (R : Nat) (p : BPage) : Nat := (4096 - p.data.length) / R

/-- Blocking `Page::rows` (lib.rs): same loop as page.rs. -/
def BPage.rows (R : Nat) (p : BPage) : List (List Nat) := rowsFrom R p.data

/-- The blocking `Db` (lib.rs) modulo the file handles. -/
structure BDb where
  file : List Nat
  pos : Nat
  page : BPage
deriving Repr, DecidableEq

/-- Blocking `Db::from_path` (lib.rs): seek the writer to the end and always
start from an empty in-memory tail page — the file is never read back
("TODO: ler o arquivo e iniciar a página corretamente"). -/
def BDb.fromPath (file : List Nat) : BDb := ⟨file, file.length, BPage.new⟩

/-- Blocking `Db::insert` (lib.rs): same write/roll/seek-back protocol as the
tokio variant (with an unconditional fsync, invisible at this level). -/
def BDb.insert (R : Nat) (st : BDb) (payload : List Nat) : Option BDb :=
  match BPage.insert R st.page payload with
  | some p' =>
    if 4096 < p'.data.length then none
    else
      let file' := writeAt st.file st.pos
        (p'.data ++ List.replicate (4096 - p'.data.length) 0)
      if BPage.availableRows R p' = 0 then
        some ⟨file', st.pos + 4096, BPage.new⟩
      else if 4096 ≤ file'.length then
        some ⟨file', file'.length - 4096, p'⟩
      else none
  | none => none

/-- Sequential blocking inserts. -/
def BDb.insertAll (R : Nat) : BDb → List (List Nat) → Option BDb
  | st, [] => some st
  | st, x :: xs =>
    match BDb.insert R st x with
    | some st' => BDb.insertAll R st' xs
    | none => none

/-- Blocking `Db::pages` (lib.rs): same loop as the tokio variant. -/
def BDb.pages (R : Nat) (st : BDb) : List Page :=
  (List.range (st.file.length / 4096)).map
    (fun k => Page.fromBytes R ((st.file.drop (4096 * k)).take 4096))

/-- Blocking `Db::rows` at the payload-byte level. -/
def BDb.rows (R : Nat) (st : BDb) : List (List Nat) :=
  (BDb.pages R st).flatMap (fun p => rowsFrom R p.data)

/-- Blocking `Db::rows` after deserialization: `filter_map(|row|
bitcode::deserialize(row).ok())` silently drops rows that fail to decode. -/
def BDb.rowsDecoded {α : Type _} (R : Nat) (dec : List Nat → Option α) (st : BDb) :
    List α :=
  (BDb.rows R st).filterMap dec

/-- rinha `TransactionType` (src/lib.rs). -/
inductive TxKind
  | credit
  | debit
deriving Repr, DecidableEq

/-- rinha `Transaction` (src/lib.rs), reduced to the fields the ledger logic
reads; `descricao` and `realizada_em` are carried along unchanged. -/
structure Tx where
  value : Int
  kind : TxKind
deriving Repr, DecidableEq

/-- A persisted ledger row `(balance_after, transaction)`. -/
abbrev Entry := Int × Tx

/-- Two's-complement wrap-around of `i64` arithmetic: the semantics of `+`
and `-` on `i64` in release-profile Rust. -/
def wrap64 (x : Int) : Int := (x + 2 ^ 63) % 2 ^ 64 - 2 ^ 63

/-- The balance of the most recent stored row, 0 when there is none: the
embedded service reads it with `rows_reverse().take(1)`
(rinha-espora-embedded/src/main.rs), the server caches it as `balance`. -/
def lastBalance (es : List Entry) : Int := ((es.getLast?).map Prod.fst).getD 0

/-- Model of `Account::transact` (rinha-espora-embedded/src/main.rs 38-75, and the
same arithmetic in rinha-espora-server/src/main.rs 60-77): read the current
balance, apply the credit/debit rule with wrapping `i64` arithmetic, and
append the new `(balance_after, transaction)` row on success.  `none` is the
insufficient-limit rejection; nothing is appended then. -/
def transact (limit : Int) (es : List Entry) (tx : Tx) : Option (Int × List Entry) :=
  let b := lastBalance es
  match tx.kind with
  | .credit =>
    let b' := wrap64 (b + tx.value)
    some (b', es ++ [(b', tx)])
  | .debit =>
    if tx.value ≤ wrap64 (b + limit) then
      let b' := wrap64 (b - tx.value)
      some (b', es ++ [(b', tx)])
    else none

/-- Apply a sequence of transaction requests to an account that starts with
no stored rows; rejected requests change nothing. -/
def applyAll (limit : Int) (txs : List Tx) : List Entry :=
  txs.foldl
    (fun es tx =>
      match transact limit es tx with
      | some (_, es') => es'
      | none => es)
    []

/-- The ledger chain rule continuing from balance `b`: each stored row's
balance is the wrap-around credit/debit update of its predecessor, and every
stored debit satisfied the limit guard when it was accepted. -/
def ledgerOk (limit : Int) : Int → List Entry → Prop
  | _, [] => True
  | b, (b', tx) :: rest =>
    (match tx.kind with
     | .credit => b' = wrap64 (b + tx.value)
     | .debit => b' = wrap64 (b - tx.value) ∧ tx.value ≤ wrap64 (b + limit)) ∧
    ledgerOk limit b' rest

/-- Model of `RingBuffer::push_front` (ring_buffer.rs) on a front-is-newest list with
capacity `cap` (`VecDeque::with_capacity(SIZE)` allocates exactly `SIZE`):
drop the oldest item when full. -/
def pushFront {α : Type _} (cap : Nat) (x : α) (l : List α) : List α :=
  if l.length = cap then x :: l.dropLast else x :: l

/-- The server's in-memory `Account` mirror (rinha-espora-server/src/main.rs):
cached balance and the last-10 ring buffer, newest first. -/
structure SAccount where
  balance : Int
  ring : List Tx
deriving Repr, DecidableEq

/-- Server `Account::transact` (cached mode, rinha-espora-server/src/main.rs
60-77): same arithmetic against the cached balance; on success push the
transaction onto the front of the ring and update the cache. -/
def stransact (limit : Int) (a : SAccount) (tx : Tx) : Option SAccount :=
  match tx.kind with
  | .credit =>
    some ⟨wrap64 (a.balance + tx.value), pushFront 10 tx a.ring⟩
  | .debit =>
    if tx.value ≤ wrap64 (a.balance + limit) then
      some ⟨wrap64 (a.balance - tx.value), pushFront 10 tx a.ring⟩
    else none

/-- Fold server transactions from an account with no prior rows. -/
def sapplyAll (limit : Int) (txs : List Tx) : SAccount :=
  txs.foldl (fun a tx => (stransact limit a tx).getD a) ⟨0, []⟩

/-- Embedded `Account::last_transactions`
(rinha-espora-embedded/src/main.rs 77-87): the first `n` items of reverse
iteration over the stored rows, i.e. the stored rows newest first (reverse
iteration yields the stored rows in reverse order; see the reverse-law
theorem for the underlying store). -/
def lastTransactions (es : List Entry) (n : Nat) : List Entry :=
  es.reverse.take n

/-- Model of `Description::try_from` (src/lib.rs): reject the empty string and strings
with `len() > 10`, where `String::len` counts UTF-8 bytes. -/
def Description.tryFrom (s : String) : Option String :=
  if s.utf8ByteSize = 0 ∨ 10 < s.utf8ByteSize then none else some s

/-- The byte image of the occupied part of a page holding rows `rs`. -/
def pageData (R : Nat) (rs : List (List Nat)) : List Nat :=
  rs.flatMap (slotBytes R)

/-- A full 4096-byte on-disk page image holding rows `rs` (for
`rs.length * R ≤ 4096`). -/
def pageBlock (R : Nat) (rs : List (List Nat)) : List Nat :=
  pageData R rs ++ List.replicate (4096 - rs.length * R) 0

/-- An encoded row a valid encoder may produce for stride `R`: nonempty and
fitting in a slot together with its 8-byte length prefix (the spec's row
encoding contract: never zero-length, never more than `R - 8` bytes). -/
def goodRow (R : Nat) (r : List Nat) : Prop := 1 ≤ r.length ∧ 8 + r.length ≤ R

instance goodRowDecidable (R : Nat) (r : List Nat) : Decidable (goodRow R r) :=
  inferInstanceAs (Decidable (1 ≤ r.length ∧ 8 + r.length ≤ R))

/-! ### Byte-encoding lemmas -/

theorem beBytes_length (k n : Nat) : (beBytes k n).length = k := by
  induction k generalizing n with
  | zero => rfl
  | succ k ih => simp [beBytes, ih]

theorem beVal_append_single (l : List Nat) (b : Nat) :
    beVal (l ++ [b]) = beVal l * 256 + b := by
  simp [beVal, List.foldl_append]

theorem beVal_beBytes (k n : Nat) : beVal (beBytes k n) = n % 256 ^ k := by
  induction k generalizing n with
  | zero => simp [beBytes, beVal, Nat.mod_one]
  | succ k ih =>
    rw [beBytes, beVal_append_single, ih]
    have h1 : (256 : Nat) ^ (k + 1) = 256 * 256 ^ k := by ring
    rw [h1, Nat.mod_mul]
    omega

theorem beBytes_zero (k : Nat) : beBytes k 0 = List.replicate k 0 := by
  induction k with
  | zero => rfl
  | succ k ih => rw [beBytes, Nat.zero_div, Nat.zero_mod, ih, List.replicate_succ']

theorem beVal_replicate_zero (k : Nat) : beVal (List.replicate k 0) = 0 := by
  induction k with
  | zero => rfl
  | succ k ih => rw [List.replicate_succ', beVal_append_single, ih]

theorem beBytes_ne_zero (k n : Nat) (h : n % 256 ^ k ≠ 0) :
    beBytes k n ≠ List.replicate k 0 := by
  intro heq
  have := beVal_beBytes k n
  rw [heq, beVal_replicate_zero] at this
  exact h this.symm

/-! ### writeAt / slotBytes lemmas -/

theorem slotBytes_length (R : Nat) (payload : List Nat)
    (h : 8 + payload.length ≤ R) : (slotBytes R payload).length = R := by
  simp only [slotBytes, List.length_append, beBytes_length, List.length_replicate]
  omega

theorem writeAt_at_end (data blk : List Nat) :
    writeAt data data.length blk = data ++ blk := by
  simp [writeAt, List.drop_eq_nil_of_le]

theorem writeAt_last_page (data blk : List Nat) (pos : Nat)
    (hpos : pos + blk.length = data.length) :
    writeAt data pos blk = data.take pos ++ blk := by
  have h1 : pos - data.length = 0 := by omega
  have h2 : data.drop (pos + blk.length) = [] :=
    List.drop_eq_nil_of_le (by omega)
  simp [writeAt, h1, h2]

theorem writeAt_length (data blk : List Nat) (pos : Nat) :
    (writeAt data pos blk).length = max data.length (pos + blk.length) := by
  simp only [writeAt, List.length_append, List.length_take, List.length_replicate,
    List.length_drop]
  omega

/-! ### Page decode lemmas -/

theorem rowsFrom_replicate_zero (R z : Nat) :
    rowsFrom R (List.replicate z 0) = [] := by
  rw [rowsFrom]
  split
  · rfl
  · simp [List.take_replicate, beVal_replicate_zero]

theorem rowsFrom_slot_cons (R : Nat) (r t : List Nat)
    (h1 : 1 ≤ r.length) (h2 : 8 + r.length ≤ R) (h3 : R ≤ 4096) :
    rowsFrom R (slotBytes R r ++ t) = r :: rowsFrom R t := by
  have hslot : (slotBytes R r).length = R := slotBytes_length R r h2
  have hlen : (slotBytes R r ++ t).length = R + t.length := by
    simp [hslot]
  have hlenmod : r.length % 256 ^ 8 = r.length := by
    apply Nat.mod_eq_of_lt
    have : (256 : Nat) ^ 8 = 18446744073709551616 := by norm_num
    omega
  rw [rowsFrom]
  have hcond : ¬(R = 0 ∨ (slotBytes R r ++ t).length < R) := by
    push_neg
    omega
  rw [dif_neg hcond]
  have htake : (slotBytes R r ++ t).take R = slotBytes R r :=
    List.take_left' hslot
  have htake8 : (slotBytes R r).take 8 = beBytes 8 r.length := by
    unfold slotBytes
    rw [List.append_assoc]
    exact List.take_left' (beBytes_length 8 r.length)
  have hdrop8 : (slotBytes R r).drop 8
      = r ++ List.replicate (R - (8 + r.length)) 0 := by
    unfold slotBytes
    rw [List.append_assoc]
    exact List.drop_left' (beBytes_length 8 r.length)
  have hpayload : ((slotBytes R r).drop 8).take r.length = r := by
    rw [hdrop8]
    exact List.take_left' rfl
  have hdropR : (slotBytes R r ++ t).drop R = t :=
    List.drop_left' hslot
  simp only [htake, htake8, beVal_beBytes, hlenmod, hdropR, hpayload]
  rw [if_neg (by omega)]

theorem rowsFrom_pageData (R : Nat) (rs : List (List Nat)) (z : Nat)
    (hR : R ≤ 4096) (hgood : ∀ r ∈ rs, goodRow R r) :
    rowsFrom R (pageData R rs ++ List.replicate z 0) = rs := by
  induction rs with
  | nil =>
    simp only [pageData, List.flatMap_nil, List.nil_append]
    exact rowsFrom_replicate_zero R z
  | cons r rs ih =>
    have hr := hgood r (by simp)
    have : pageData R (r :: rs) ++ List.replicate z 0
        = slotBytes R r ++ (pageData R rs ++ List.replicate z 0) := by
      simp [pageData, List.flatMap_cons, List.append_assoc]
    rw [this, rowsFrom_slot_cons R r _ hr.1 hr.2 hR,
      ih (fun x hx => hgood x (by simp [hx]))]

theorem leadingRows_replicate_zero (R z : Nat) (h8 : 8 ≤ R) :
    leadingRows R (List.replicate z 0) = 0 := by
  rw [leadingRows]
  split
  · rfl
  · rename_i h
    push_neg at h
    simp only [List.length_replicate] at h
    have : (List.replicate z 0).take 8 = List.replicate 8 0 := by
      rw [List.take_replicate]
      congr 1
      omega
    rw [if_pos this]

theorem leadingRows_slot_cons (R : Nat) (r t : List Nat)
    (h1 : 1 ≤ r.length) (h2 : 8 + r.length ≤ R) (h3 : R ≤ 4096) :
    leadingRows R (slotBytes R r ++ t) = 1 + leadingRows R t := by
  have hslot : (slotBytes R r).length = R := slotBytes_length R r h2
  have hlen : (slotBytes R r ++ t).length = R + t.length := by simp [hslot]
  rw [leadingRows]
  have hcond : ¬(R = 0 ∨ (slotBytes R r ++ t).length < R) := by
    push_neg
    omega
  rw [dif_neg hcond]
  have htake8 : (slotBytes R r ++ t).take 8 = beBytes 8 r.length := by
    unfold slotBytes
    rw [List.append_assoc, List.append_assoc]
    exact List.take_left' (beBytes_length 8 r.length)
  have hne : (slotBytes R r ++ t).take 8 ≠ List.replicate 8 0 := by
    rw [htake8]
    apply beBytes_ne_zero
    have : (256 : Nat) ^ 8 = 18446744073709551616 := by norm_num
    rw [Nat.mod_eq_of_lt (by omega)]
    omega
  rw [if_neg hne]
  have hdropR : (slotBytes R r ++ t).drop R = t :=
    List.drop_left' hslot
  rw [hdropR]

theorem leadingRows_pageData (R : Nat) (rs : List (List Nat)) (z : Nat)
    (h8 : 8 ≤ R) (hR : R ≤ 4096) (hgood : ∀ r ∈ rs, goodRow R r) :
    leadingRows R (pageData R rs ++ List.replicate z 0) = rs.length := by
  induction rs with
  | nil =>
    simp only [pageData, List.flatMap_nil, List.nil_append]
    exact leadingRows_replicate_zero R z h8
  | cons r rs ih =>
    have hr := hgood r (by simp)
    have : pageData R (r :: rs) ++ List.replicate z 0
        = slotBytes R r ++ (pageData R rs ++ List.replicate z 0) := by
      simp [pageData, List.flatMap_cons, List.append_assoc]
    rw [this, leadingRows_slot_cons R r _ hr.1 hr.2 hR,
      ih (fun x hx => hgood x (by simp [hx]))]
    simp only [List.length_cons]
    omega

/-! ### pageData / pageBlock lemmas -/

theorem pageData_nil (R : Nat) : pageData R [] = [] := rfl

theorem pageData_singleton (R : Nat) (y : List Nat) :
    pageData R [y] = slotBytes R y := by
  simp [pageData]

theorem pageData_append (R : Nat) (xs ys : List (List Nat)) :
    pageData R (xs ++ ys) = pageData R xs ++ pageData R ys := by
  simp [pageData]

theorem pageData_length (R : Nat) (rs : List (List Nat))
    (h : ∀ r ∈ rs, 8 + r.length ≤ R) :
    (pageData R rs).length = rs.length * R := by
  induction rs with
  | nil => simp [pageData]
  | cons r rs ih =>
    have hr := h r (by simp)
    simp only [pageData, List.flatMap_cons, List.length_append,
      slotBytes_length R r hr]
    rw [show (rs.flatMap (slotBytes R)).length = (pageData R rs).length from rfl,
      ih (fun x hx => h x (by simp [hx]))]
    simp only [List.length_cons]
    ring

theorem pageBlock_length (R : Nat) (rs : List (List Nat))
    (h : ∀ r ∈ rs, 8 + r.length ≤ R) (hlen : rs.length * R ≤ 4096) :
    (pageBlock R rs).length = 4096 := by
  simp only [pageBlock, List.length_append, List.length_replicate,
    pageData_length R rs h]
  omega

theorem rowsFrom_pageBlock (R : Nat) (rs : List (List Nat))
    (hR : R ≤ 4096) (hgood : ∀ r ∈ rs, goodRow R r) :
    rowsFrom R (pageBlock R rs) = rs :=
  rowsFrom_pageData R rs _ hR hgood

theorem avail_arith (R k : Nat) (hk : k ≤ 4096 / R) :
    (4096 - k * R) / R = 4096 / R - k := by
  have h1 : R * k ≤ 4096 :=
    le_trans (by rw [mul_comm]; exact Nat.mul_le_mul_right R hk)
      (Nat.div_mul_le_self 4096 R)
  rw [mul_comm, Nat.sub_mul_div 4096 R k h1]

/-! ### Page-list decomposition of a file -/

theorem Db.pages_blocks (R : Nat) (bs : List (List Nat)) (pos : Nat) (pg : Page)
    (h : ∀ b ∈ bs, b.length = 4096) :
    Db.pages R ⟨bs.flatMap id, pos, pg⟩ = bs.map (Page.fromBytes R) := by
  induction bs generalizing pos pg with
  | nil => simp [Db.pages]
  | cons b bs ih =>
    have hb : b.length = 4096 := h b (by simp)
    have hrest : ∀ x ∈ bs, x.length = 4096 := fun x hx => h x (by simp [hx])
    have hsplit : (b :: bs).flatMap id = b ++ bs.flatMap id := by
      simp [List.flatMap_cons]
    unfold Db.pages
    simp only [hsplit, List.length_append, hb]
    have hdiv : (4096 + (bs.flatMap id).length) / 4096
        = (bs.flatMap id).length / 4096 + 1 := by
      rw [Nat.add_comm, Nat.add_div_right _ (by norm_num)]
    rw [hdiv, List.range_succ_eq_map, List.map_cons, List.map_map]
    congr 1
    · rw [Nat.mul_zero, List.drop_zero, List.take_left' hb]
    · have := ih pos pg hrest
      unfold Db.pages at this
      rw [← this]
      apply List.map_congr_left
      intro k _
      simp only [Function.comp_apply]
      have harith : 4096 * Nat.succ k = b.length + 4096 * k := by
        rw [hb]; omega
      rw [harith, List.drop_append]

theorem reverse_map_range {α : Type _} (m : Nat) (f : Nat → α) :
    ((List.range m).map f).reverse = (List.range m).map (fun i => f (m - 1 - i)) := by
  induction m generalizing f with
  | zero => simp
  | succ m ih =>
    conv_lhs => rw [List.range_succ_eq_map]
    conv_rhs => rw [List.range_succ]
    simp only [List.map_cons, List.map_map, List.reverse_cons, List.map_append,
      List.map_nil]
    rw [ih]
    congr 1
    · apply List.map_congr_left
      intro i hi
      rw [List.mem_range] at hi
      simp only [Function.comp_apply]
      congr 1
      omega
    · simp

theorem reverse_flatMap {α β : Type _} (l : List α) (g : α → List β) :
    (l.flatMap g).reverse = l.reverse.flatMap (fun a => (g a).reverse) := by
  induction l with
  | nil => simp
  | cons x xs ih =>
    simp [List.flatMap_cons, List.reverse_append, ih, List.flatMap_append]

/-- On a page-aligned file, reverse page iteration visits exactly the forward
pages in reverse order. -/
theorem Db.pagesReverse_eq (R : Nat) (st : Db) (hal : 4096 ∣ st.file.length) :
    Db.pagesReverse R st = (Db.pages R st).reverse := by
  obtain ⟨m, hm⟩ := hal
  unfold Db.pagesReverse Db.pages
  rw [hm, Nat.mul_div_cancel_left m (show 0 < 4096 by norm_num), reverse_map_range]
  apply List.map_congr_left
  intro i hi
  rw [List.mem_range] at hi
  have harith : 4096 * m - 4096 * (i + 1) = 4096 * (m - 1 - i) := by omega
  rw [harith]

/-! ### The reachable-state invariant of the tokio store -/

theorem writeAt_nil (blk : List Nat) : writeAt [] 0 blk = blk := by
  simp [writeAt]

theorem Page.insert_ok (R : Nat) (p : Page) (y : List Nat)
    (h1 : 8 + y.length ≤ R) (h2 : R ≤ p.free) :
    Page.insert R p y
      = .ok ⟨writeAt p.data (4096 - p.free) (slotBytes R y), p.free - R⟩ := by
  unfold Page.insert
  rw [if_neg (by omega), if_neg (by omega)]

/-- The on-disk blocks of a store holding the sealed pages `full` followed by
the (possibly empty) tail rows `tl`. -/
def blocksOf (R : Nat) (full : List (List (List Nat))) (tl : List (List Nat)) :
    List (List Nat) :=
  full.map (pageBlock R) ++ (if tl = [] then [] else [pageBlock R tl])

/-- Invariant of a store reached from an empty file: `full` holds the contents
of the sealed pages (each exactly `4096 / R` rows), `tl` the rows of the
in-progress tail page (strictly fewer than `4096 / R`). -/
def Inv (R : Nat) (st : Db) (full : List (List (List Nat)))
    (tl : List (List Nat)) : Prop :=
  (∀ c ∈ full, c.length = 4096 / R ∧ ∀ r ∈ c, goodRow R r) ∧
  (∀ r ∈ tl, goodRow R r) ∧
  tl.length < 4096 / R ∧
  st.file = (blocksOf R full tl).flatMap id ∧
  (if tl = [] then st.page = Page.new ∧ st.pos = st.file.length
   else st.page = ⟨pageData R tl, 4096 - tl.length * R⟩ ∧
     st.pos + 4096 = st.file.length)

theorem blocksOf_lengths (R : Nat) (hR : R ≤ 4096)
    (full : List (List (List Nat))) (tl : List (List Nat))
    (hfull : ∀ c ∈ full, c.length = 4096 / R ∧ ∀ r ∈ c, goodRow R r)
    (htl : ∀ r ∈ tl, goodRow R r) (htlen : tl.length ≤ 4096 / R) :
    ∀ b ∈ blocksOf R full tl, b.length = 4096 := by
  intro b hb
  unfold blocksOf at hb
  rw [List.mem_append] at hb
  rcases hb with hb | hb
  · rw [List.mem_map] at hb
    obtain ⟨c, hc, rfl⟩ := hb
    obtain ⟨hclen, hcgood⟩ := hfull c hc
    apply pageBlock_length R c (fun r hr => (hcgood r hr).2)
    rw [hclen]
    exact Nat.div_mul_le_self 4096 R
  · split at hb
    · simp at hb
    · simp only [List.mem_singleton] at hb
      subst hb
      apply pageBlock_length R tl (fun r hr => (htl r hr).2)
      exact le_trans (Nat.mul_le_mul_right R htlen) (Nat.div_mul_le_self 4096 R)

theorem flatMap_id_length (bs : List (List Nat))
    (h : ∀ b ∈ bs, b.length = 4096) :
    (bs.flatMap id).length = bs.length * 4096 := by
  induction bs with
  | nil => simp
  | cons b bs ih =>
    have hb : b.length = 4096 := h b (by simp)
    simp only [List.flatMap_cons, id, List.length_append, hb, List.length_cons,
      ih (fun x hx => h x (by simp [hx]))]
    ring

/-- One insert from a reachable state succeeds and re-establishes the
invariant, rolling the tail page into `full` exactly when it fills up. -/
theorem Db.insert_step (R : Nat) (h8 : 8 ≤ R) (hR : R ≤ 4096)
    (st : Db) (full : List (List (List Nat))) (tl : List (List Nat))
    (hinv : Inv R st full tl) (y : List Nat) (hy : goodRow R y) :
    ∃ st', Db.insert R st y = some st' ∧
      (if tl.length + 1 = 4096 / R then Inv R st' (full ++ [tl ++ [y]]) []
       else Inv R st' full (tl ++ [y])) := by
  obtain ⟨hfull, htl, htlen, hfile, hrest⟩ := hinv
  have hRpos : 0 < R := by omega
  have hs1 : 1 ≤ 4096 / R := (Nat.one_le_div_iff hRpos).mpr hR
  have hsR : 4096 / R * R ≤ 4096 := Nat.div_mul_le_self 4096 R
  obtain ⟨f, pos, pg⟩ := st
  simp only at hfile hrest
  have hylen : (slotBytes R y).length = R := slotBytes_length R y hy.2
  by_cases htle : tl = []
  · -- the tail page is empty: the insert starts a fresh slot at the end
    subst htle
    rw [if_pos rfl] at hrest
    obtain ⟨hpage, hpos⟩ := hrest
    subst hpage
    have hfileA : f = (full.map (pageBlock R)).flatMap id := by
      simpa [blocksOf] using hfile
    have hblocklen : ∀ b ∈ full.map (pageBlock R), b.length = 4096 := by
      have := blocksOf_lengths R hR full [] hfull (by simp) (by omega)
      simpa [blocksOf] using this
    have hfollowlen : ([y].length : Nat) * R ≤ 4096 := by
      simp only [List.length_singleton, one_mul]
      omega
    have hygood : ∀ r ∈ [y], goodRow R r := by
      intro r hr
      rw [List.mem_singleton] at hr
      subst hr
      exact hy
    have hpblen : (pageBlock R [y]).length = 4096 :=
      pageBlock_length R [y] (fun r hr => (hygood r hr).2) hfollowlen
    have hins : Page.insert R Page.new y = .ok ⟨slotBytes R y, 4096 - R⟩ := by
      have hfree : R ≤ Page.new.free := hR
      have h := Page.insert_ok R Page.new y hy.2 hfree
      have hdata : writeAt Page.new.data (4096 - Page.new.free) (slotBytes R y)
          = slotBytes R y := by
        show writeAt [] (4096 - 4096) (slotBytes R y) = slotBytes R y
        norm_num [writeAt_nil]
      rw [hdata] at h
      exact h
    have hblk : slotBytes R y ++ List.replicate (4096 - R) 0 = pageBlock R [y] := by
      simp [pageBlock, pageData_singleton]
    have havail : Page.availableRows R ⟨slotBytes R y, 4096 - R⟩
        = 4096 / R - 1 := by
      show (4096 - (slotBytes R y).length) / R = 4096 / R - 1
      rw [hylen]
      have := avail_arith R 1 hs1
      simpa using this
    have hfilewrite : writeAt f pos
          (slotBytes R y ++ List.replicate (4096 - (slotBytes R y).length) 0)
        = f ++ pageBlock R [y] := by
      rw [hylen, hpos, writeAt_at_end, hblk]
    have hfl' : (f ++ pageBlock R [y]).length = f.length + 4096 := by
      simp [hpblen]
    by_cases hroll : (0 : Nat) + 1 = 4096 / R
    · -- a single row already fills the page: roll immediately
      have hs : 4096 / R = 1 := by omega
      have hcalc : Db.insert R ⟨f, pos, Page.new⟩ y
          = some ⟨f ++ pageBlock R [y], pos + 4096, Page.new⟩ := by
        unfold Db.insert
        simp only [hins]
        rw [if_neg (by rw [hylen]; omega)]
        rw [hfilewrite, havail, if_pos (by omega)]
      refine ⟨_, hcalc, ?_⟩
      rw [if_pos (by simpa using hroll)]
      refine ⟨?_, by simp, by omega, ?_, ?_⟩
      · intro c hc
        rw [List.mem_append] at hc
        rcases hc with hc | hc
        · exact hfull c hc
        · rw [List.mem_singleton] at hc
          subst hc
          simp only [List.nil_append]
          exact ⟨by simpa using hs.symm, hygood⟩
      · show f ++ pageBlock R [y] = (blocksOf R (full ++ [[] ++ [y]]) []).flatMap id
        rw [hfileA]
        simp [blocksOf, List.flatMap_append]
      · rw [if_pos rfl]
        constructor
        · rfl
        · show pos + 4096 = (f ++ pageBlock R [y]).length
          rw [hfl']
          omega
    · -- the page still has room: seek back and keep the tail page
      have hcalc : Db.insert R ⟨f, pos, Page.new⟩ y
          = some ⟨f ++ pageBlock R [y], (f ++ pageBlock R [y]).length - 4096,
              ⟨slotBytes R y, 4096 - R⟩⟩ := by
        unfold Db.insert
        simp only [hins]
        rw [if_neg (by rw [hylen]; omega)]
        rw [hfilewrite, havail, if_neg (by omega), if_pos (by rw [hfl']; omega)]
      refine ⟨_, hcalc, ?_⟩
      rw [if_neg (by simpa using hroll)]
      refine ⟨hfull, by simpa using hygood,
        by simp only [List.nil_append, List.length_singleton]; omega, ?_, ?_⟩
      · show f ++ pageBlock R [y]
            = (blocksOf R full ([] ++ [y])).flatMap id
        simp only [List.nil_append, blocksOf,
          if_neg (by simp : ¬([y] : List (List Nat)) = []),
          List.flatMap_append, List.flatMap_cons, List.flatMap_nil, id,
          List.append_nil]
        rw [hfileA]
      · rw [if_neg (by simp)]
        constructor
        · show (⟨slotBytes R y, 4096 - R⟩ : Page)
              = ⟨pageData R ([] ++ [y]), 4096 - ([] ++ [y]).length * R⟩
          simp [pageData_singleton]
        · show (f ++ pageBlock R [y]).length - 4096 + 4096
              = (f ++ pageBlock R [y]).length
          rw [hfl']
          omega
  · -- the tail page already holds rows `tl`
    rw [if_neg htle] at hrest
    obtain ⟨hpage, hpos⟩ := hrest
    subst hpage
    have hk1 : 1 ≤ tl.length := List.length_pos.mpr htle
    have hkS : tl.length + 1 ≤ 4096 / R := htlen
    have hkR : (tl.length + 1) * R ≤ 4096 :=
      le_trans (Nat.mul_le_mul_right R hkS) hsR
    have hmul : (tl.length + 1) * R = tl.length * R + R := by ring
    have hdatalen : (pageData R tl).length = tl.length * R :=
      pageData_length R tl (fun r hr => (htl r hr).2)
    have hfreeR : R ≤ 4096 - tl.length * R := by omega
    have htlgood : ∀ r ∈ tl ++ [y], goodRow R r := by
      intro r hr
      rw [List.mem_append, List.mem_singleton] at hr
      rcases hr with hr | hr
      · exact htl r hr
      · subst hr
        exact hy
    have hpd : pageData R (tl ++ [y]) = pageData R tl ++ slotBytes R y := by
      rw [pageData_append, pageData_singleton]
    have hpdlen : (pageData R (tl ++ [y])).length = (tl.length + 1) * R := by
      have := pageData_length R (tl ++ [y]) (fun r hr => (htlgood r hr).2)
      simpa using this
    have hins : Page.insert R ⟨pageData R tl, 4096 - tl.length * R⟩ y
        = .ok ⟨pageData R (tl ++ [y]), 4096 - (tl.length + 1) * R⟩ := by
      have h := Page.insert_ok R ⟨pageData R tl, 4096 - tl.length * R⟩ y hy.2 hfreeR
      have hoff : 4096 - (4096 - tl.length * R) = (pageData R tl).length := by
        rw [hdatalen]
        omega
      rw [show (⟨pageData R tl, 4096 - tl.length * R⟩ : Page).data
          = pageData R tl from rfl,
        show (⟨pageData R tl, 4096 - tl.length * R⟩ : Page).free
          = 4096 - tl.length * R from rfl] at h
      rw [hoff, writeAt_at_end] at h
      rw [h, ← hpd]
      congr 2
      rw [hmul]
      omega
    have hpgb : pageData R (tl ++ [y])
          ++ List.replicate (4096 - (pageData R (tl ++ [y])).length) 0
        = pageBlock R (tl ++ [y]) := by
      rw [pageBlock, hpdlen]
      congr 2
      simp
    have hpblen : (pageBlock R (tl ++ [y])).length = 4096 := by
      apply pageBlock_length R (tl ++ [y]) (fun r hr => (htlgood r hr).2)
      simpa using hkR
    have hpbtl_len : (pageBlock R tl).length = 4096 := by
      apply pageBlock_length R tl (fun r hr => (htl r hr).2)
      omega
    have hfileA : f = (full.map (pageBlock R)).flatMap id ++ pageBlock R tl := by
      rw [hfile]
      simp [blocksOf, if_neg htle]
    have hflen : f.length = ((full.map (pageBlock R)).flatMap id).length + 4096 := by
      rw [hfileA]
      simp [hpbtl_len]
    have hposA : pos = ((full.map (pageBlock R)).flatMap id).length := by omega
    have havail : Page.availableRows R
          ⟨pageData R (tl ++ [y]), 4096 - (tl.length + 1) * R⟩
        = 4096 / R - (tl.length + 1) := by
      show (4096 - (pageData R (tl ++ [y])).length) / R = 4096 / R - (tl.length + 1)
      rw [hpdlen]
      exact avail_arith R (tl.length + 1) hkS
    have hfilewrite : writeAt f pos (pageData R (tl ++ [y])
          ++ List.replicate (4096 - (pageData R (tl ++ [y])).length) 0)
        = (full.map (pageBlock R)).flatMap id ++ pageBlock R (tl ++ [y]) := by
      rw [hpgb, writeAt_last_page f (pageBlock R (tl ++ [y])) pos
        (by rw [hpblen]; omega)]
      congr 1
      rw [hfileA]
      exact List.take_left' hposA.symm
    by_cases hroll : tl.length + 1 = 4096 / R
    · -- this insert fills the page: roll to a fresh tail page
      have hcalc : Db.insert R ⟨f, pos, ⟨pageData R tl, 4096 - tl.length * R⟩⟩ y
          = some ⟨(full.map (pageBlock R)).flatMap id ++ pageBlock R (tl ++ [y]),
              pos + 4096, Page.new⟩ := by
        unfold Db.insert
        simp only [hins]
        rw [if_neg (by rw [hpdlen]; omega)]
        rw [hfilewrite, havail, if_pos (by omega)]
      refine ⟨_, hcalc, ?_⟩
      rw [if_pos hroll]
      refine ⟨?_, by simp, by simp only [List.length_nil]; omega, ?_, ?_⟩
      · intro c hc
        rw [List.mem_append] at hc
        rcases hc with hc | hc
        · exact hfull c hc
        · rw [List.mem_singleton] at hc
          subst hc
          refine ⟨?_, htlgood⟩
          simp only [List.length_append, List.length_singleton]
          omega
      · show (full.map (pageBlock R)).flatMap id ++ pageBlock R (tl ++ [y])
            = (blocksOf R (full ++ [tl ++ [y]]) []).flatMap id
        simp [blocksOf, List.flatMap_append]
      · rw [if_pos rfl]
        refine ⟨rfl, ?_⟩
        show pos + 4096
            = ((full.map (pageBlock R)).flatMap id ++ pageBlock R (tl ++ [y])).length
        simp only [List.length_append, hpblen]
        omega
    · -- the page still has room: keep the tail page and seek back
      have hcalc : Db.insert R ⟨f, pos, ⟨pageData R tl, 4096 - tl.length * R⟩⟩ y
          = some ⟨(full.map (pageBlock R)).flatMap id ++ pageBlock R (tl ++ [y]),
              ((full.map (pageBlock R)).flatMap id
                ++ pageBlock R (tl ++ [y])).length - 4096,
              ⟨pageData R (tl ++ [y]), 4096 - (tl.length + 1) * R⟩⟩ := by
        unfold Db.insert
        simp only [hins]
        rw [if_neg (by rw [hpdlen]; omega)]
        rw [hfilewrite, havail, if_neg (by omega),
          if_pos (by simp only [List.length_append, hpblen]; omega)]
      refine ⟨_, hcalc, ?_⟩
      rw [if_neg hroll]
      refine ⟨hfull, htlgood, ?_, ?_, ?_⟩
      · simp only [List.length_append, List.length_singleton]
        omega
      · show (full.map (pageBlock R)).flatMap id ++ pageBlock R (tl ++ [y])
            = (blocksOf R full (tl ++ [y])).flatMap id
        simp only [blocksOf, if_neg (by simp : ¬(tl ++ [y]) = []),
          List.flatMap_append, List.flatMap_cons, List.flatMap_nil, id,
          List.append_nil]
      · rw [if_neg (by simp : ¬(tl ++ [y]) = [])]
        constructor
        · show (⟨pageData R (tl ++ [y]), 4096 - (tl.length + 1) * R⟩ : Page)
              = ⟨pageData R (tl ++ [y]), 4096 - (tl ++ [y]).length * R⟩
          simp
        · show ((full.map (pageBlock R)).flatMap id
                ++ pageBlock R (tl ++ [y])).length - 4096 + 4096
              = ((full.map (pageBlock R)).flatMap id ++ pageBlock R (tl ++ [y])).length
          simp only [List.length_append, hpblen]
          omega

theorem Inv_init (R : Nat) (h8 : 8 ≤ R) (hR : R ≤ 4096) :
    Inv R (Db.fromPath R []) [] [] := by
  have hs1 : 1 ≤ 4096 / R := (Nat.one_le_div_iff (by omega)).mpr hR
  unfold Db.fromPath
  rw [if_neg (by simp)]
  refine ⟨by simp, by simp, by simp only [List.length_nil]; omega,
    by simp [blocksOf], ?_⟩
  rw [if_pos rfl]
  exact ⟨rfl, by simp⟩

theorem flatMap_congr {α β : Type _} (l : List α) (f g : α → List β)
    (h : ∀ a ∈ l, f a = g a) : l.flatMap f = l.flatMap g := by
  induction l with
  | nil => simp
  | cons x xs ih =>
    simp only [List.flatMap_cons, h x (by simp),
      ih (fun a ha => h a (by simp [ha]))]

/-- Inserting a sequence of well-formed rows from a reachable state succeeds
and lands in a reachable state holding the old rows followed by the new. -/
theorem Db.insertAll_inv (R : Nat) (h8 : 8 ≤ R) (hR : R ≤ 4096) :
    ∀ (xs : List (List Nat)) (st : Db) (full : List (List (List Nat)))
      (tl : List (List Nat)), Inv R st full tl → (∀ x ∈ xs, goodRow R x) →
      ∃ st' full' tl', Db.insertAll R st xs = some st' ∧ Inv R st' full' tl' ∧
        full'.flatMap id ++ tl' = (full.flatMap id ++ tl) ++ xs := by
  intro xs
  induction xs with
  | nil =>
    intro st full tl hinv _
    exact ⟨st, full, tl, rfl, hinv, by simp⟩
  | cons x xs ih =>
    intro st full tl hinv hgood
    obtain ⟨st1, hins, hinv1⟩ :=
      Db.insert_step R h8 hR st full tl hinv x (hgood x (by simp))
    by_cases hroll : tl.length + 1 = 4096 / R
    · rw [if_pos hroll] at hinv1
      obtain ⟨st', full', tl', h1, h2, h3⟩ :=
        ih st1 _ _ hinv1 (fun z hz => hgood z (by simp [hz]))
      refine ⟨st', full', tl', ?_, h2, ?_⟩
      · simp only [Db.insertAll, hins]
        exact h1
      · rw [h3]
        simp [List.flatMap_append, List.append_assoc]
    · rw [if_neg hroll] at hinv1
      obtain ⟨st', full', tl', h1, h2, h3⟩ :=
        ih st1 _ _ hinv1 (fun z hz => hgood z (by simp [hz]))
      refine ⟨st', full', tl', ?_, h2, ?_⟩
      · simp only [Db.insertAll, hins]
        exact h1
      · rw [h3]
        simp [List.append_assoc]

/-- Forward iteration of a reachable store yields exactly the rows written. -/
theorem Db.rows_inv (R : Nat) (h8 : 8 ≤ R) (hR : R ≤ 4096) (st : Db)
    (full : List (List (List Nat))) (tl : List (List Nat))
    (hinv : Inv R st full tl) :
    Db.rows R st = full.flatMap id ++ tl := by
  obtain ⟨hfull, htl, htlen, hfile, _⟩ := hinv
  have hbl : ∀ b ∈ blocksOf R full tl, b.length = 4096 :=
    blocksOf_lengths R hR full tl hfull htl (by omega)
  obtain ⟨f, pos, pg⟩ := st
  simp only at hfile
  subst hfile
  have hpages := Db.pages_blocks R (blocksOf R full tl) pos pg hbl
  unfold Db.rows
  rw [hpages, List.flatMap_map]
  have hrw : ∀ b, Page.rows R (Page.fromBytes R b) = rowsFrom R b := fun _ => rfl
  unfold blocksOf
  rw [List.flatMap_append, List.flatMap_map]
  congr 1
  · exact flatMap_congr full _ id
      (fun c hc => rowsFrom_pageBlock R c hR (fun r hr => (hfull c hc).2 r hr))
  · by_cases htle : tl = []
    · subst htle
      simp
    · rw [if_neg htle]
      simp only [List.flatMap_cons, List.flatMap_nil, List.append_nil]
      exact rowsFrom_pageBlock R tl hR htl

theorem Db.fromPath_file (R : Nat) (f : List Nat) :
    (Db.fromPath R f).file = f := by
  unfold Db.fromPath
  split <;> rfl

theorem Db.rows_reopen (R : Nat) (st : Db) :
    Db.rows R (Db.fromPath R st.file) = Db.rows R st := by
  unfold Db.rows Db.pages
  rw [Db.fromPath_file]

/-! ### Correspondence between the blocking and the tokio variants -/

/-- Correspondence between a blocking store state and a tokio store state:
same bytes, same writer position, same tail-page buffer, and a tokio free
counter consistent with the buffer. -/
def Rel (b : BDb) (t : Db) : Prop :=
  b.file = t.file ∧ b.pos = t.pos ∧ b.page.data = t.page.data ∧
  t.page.free = 4096 - t.page.data.length ∧ t.page.data.length ≤ 4096

theorem Rel_init (R : Nat) : Rel (BDb.fromPath []) (Db.fromPath R []) := by
  unfold BDb.fromPath Db.fromPath
  rw [if_neg (by simp)]
  exact ⟨rfl, rfl, rfl, rfl, by simp [Page.new]⟩

/-- On corresponding states one insert either fails on both sides or succeeds
on both sides with corresponding results. -/
theorem insert_rel (R : Nat) (b : BDb) (t : Db) (hrel : Rel b t)
    (y : List Nat) :
    (BDb.insert R b y = none ∧ Db.insert R t y = none) ∨
    (∃ b' t', BDb.insert R b y = some b' ∧ Db.insert R t y = some t'
      ∧ Rel b' t') := by
  obtain ⟨bf, bpos, pgB⟩ := b
  obtain ⟨bd⟩ := pgB
  obtain ⟨tf, tpos, pgT⟩ := t
  obtain ⟨td, tfree⟩ := pgT
  obtain ⟨h1, h2, h3, h4, h5⟩ := hrel
  simp only at h1 h2 h3 h4 h5
  subst h1
  subst h2
  subst h3
  subst h4
  by_cases hy : 8 + y.length > R
  · left
    constructor
    · simp [BDb.insert, BPage.insert, hy]
    · simp [Db.insert, Page.insert, hy]
  · push_neg at hy
    have hslot : (slotBytes R y).length = R := slotBytes_length R y hy
    have hdl : (bd ++ slotBytes R y).length = bd.length + R := by simp [hslot]
    have hBpage : BPage.insert R ⟨bd⟩ y = some ⟨bd ++ slotBytes R y⟩ := by
      unfold BPage.insert
      rw [if_neg (by omega)]
    by_cases hfree : 4096 - bd.length < R
    · -- no space: tokio panics in the page insert, blocking panics in the
      -- PAGE_SIZE - len underflow of Db::insert
      left
      constructor
      · unfold BDb.insert
        simp only [hBpage]
        rw [if_pos (by omega)]
      · unfold Db.insert
        unfold Page.insert
        rw [if_neg (by omega), if_pos (by exact hfree)]
    · push_neg at hfree
      have hTpage : Page.insert R ⟨bd, 4096 - bd.length⟩ y
          = .ok ⟨bd ++ slotBytes R y, 4096 - (bd.length + R)⟩ := by
        have h := Page.insert_ok R ⟨bd, 4096 - bd.length⟩ y hy hfree
        have hoff : 4096 - (4096 - bd.length) = bd.length := by omega
        rw [show (⟨bd, 4096 - bd.length⟩ : Page).data = bd from rfl,
          show (⟨bd, 4096 - bd.length⟩ : Page).free = 4096 - bd.length from rfl]
          at h
        rw [hoff, writeAt_at_end] at h
        rw [h]
        congr 2
        omega
      right
      have hnlt : ¬4096 < (bd ++ slotBytes R y).length := by omega
      by_cases havail : (4096 - (bd ++ slotBytes R y).length) / R = 0
      · -- the page filled up: both sides roll
        refine ⟨⟨writeAt bf bpos ((bd ++ slotBytes R y)
            ++ List.replicate (4096 - (bd ++ slotBytes R y).length) 0),
            bpos + 4096, BPage.new⟩,
          ⟨writeAt bf bpos ((bd ++ slotBytes R y)
            ++ List.replicate (4096 - (bd ++ slotBytes R y).length) 0),
            bpos + 4096, Page.new⟩, ?_, ?_, ?_⟩
        · unfold BDb.insert
          simp only [hBpage]
          rw [if_neg hnlt,
            if_pos (show BPage.availableRows R ⟨bd ++ slotBytes R y⟩ = 0
              from havail)]
        · unfold Db.insert
          simp only [hTpage]
          rw [if_neg hnlt,
            if_pos (show Page.availableRows R
              ⟨bd ++ slotBytes R y, 4096 - (bd.length + R)⟩ = 0 from havail)]
        · exact ⟨rfl, rfl, rfl, rfl, by simp [Page.new]⟩
      · -- the page still has room: both sides keep it and seek back
        have hwlen : 4096 ≤ (writeAt bf bpos ((bd ++ slotBytes R y)
            ++ List.replicate (4096 - (bd ++ slotBytes R y).length) 0)).length := by
          rw [writeAt_length]
          simp only [List.length_append, List.length_replicate]
          omega
        refine ⟨⟨writeAt bf bpos ((bd ++ slotBytes R y)
            ++ List.replicate (4096 - (bd ++ slotBytes R y).length) 0),
            (writeAt bf bpos ((bd ++ slotBytes R y)
              ++ List.replicate (4096 - (bd ++ slotBytes R y).length) 0)).length
              - 4096,
            ⟨bd ++ slotBytes R y⟩⟩,
          ⟨writeAt bf bpos ((bd ++ slotBytes R y)
            ++ List.replicate (4096 - (bd ++ slotBytes R y).length) 0),
            (writeAt bf bpos ((bd ++ slotBytes R y)
              ++ List.replicate (4096 - (bd ++ slotBytes R y).length) 0)).length
              - 4096,
            ⟨bd ++ slotBytes R y, 4096 - (bd.length + R)⟩⟩, ?_, ?_, ?_⟩
        · unfold BDb.insert
          simp only [hBpage]
          rw [if_neg hnlt,
            if_neg (show ¬BPage.availableRows R ⟨bd ++ slotBytes R y⟩ = 0
              from havail),
            if_pos hwlen]
        · unfold Db.insert
          simp only [hTpage]
          rw [if_neg hnlt,
            if_neg (show ¬Page.availableRows R
              ⟨bd ++ slotBytes R y, 4096 - (bd.length + R)⟩ = 0 from havail),
            if_pos hwlen]
        · refine ⟨rfl, rfl, rfl, ?_, ?_⟩
          · show 4096 - (bd.length + R) = 4096 - (bd ++ slotBytes R y).length
            omega
          · show (bd ++ slotBytes R y).length ≤ 4096
            omega

/-- Lifting `insert_rel` through a sequence of inserts. -/
theorem insertAll_rel (R : Nat) :
    ∀ (xs : List (List Nat)) (b : BDb) (t : Db), Rel b t →
      (BDb.insertAll R b xs = none ∧ Db.insertAll R t xs = none) ∨
      (∃ b' t', BDb.insertAll R b xs = some b' ∧ Db.insertAll R t xs = some t'
        ∧ Rel b' t') := by
  intro xs
  induction xs with
  | nil =>
    intro b t hrel
    right
    exact ⟨b, t, rfl, rfl, hrel⟩
  | cons x xs ih =>
    intro b t hrel
    rcases insert_rel R b t hrel x with ⟨hb, ht⟩ | ⟨b1, t1, hb, ht, hrel1⟩
    · left
      constructor
      · simp only [BDb.insertAll, hb]
      · simp only [Db.insertAll, ht]
    · rcases ih b1 t1 hrel1 with ⟨hb2, ht2⟩ | ⟨b', t', hb2, ht2, hrel2⟩
      · left
        constructor
        · simp only [BDb.insertAll, hb, hb2]
        · simp only [Db.insertAll, ht, ht2]
      · right
        refine ⟨b', t', ?_, ?_, hrel2⟩
        · simp only [BDb.insertAll, hb, hb2]
        · simp only [Db.insertAll, ht, ht2]

/-! ### Ledger lemmas -/

/-- The balance of the most recent row, continuing from `b0` when empty. -/
def lastFrom (b0 : Int) (es : List Entry) : Int :=
  ((es.getLast?).map Prod.fst).getD b0

theorem lastBalance_eq_lastFrom (es : List Entry) :
    lastBalance es = lastFrom 0 es := rfl

/-- The chain condition of one new row on top of previous balance `prev`. -/
def stepOk (limit prev : Int) (e : Entry) : Prop :=
  match e.2.kind with
  | .credit => e.1 = wrap64 (prev + e.2.value)
  | .debit => e.1 = wrap64 (prev - e.2.value) ∧ e.2.value ≤ wrap64 (prev + limit)

theorem lastFrom_cons (b0 : Int) (x : Entry) (es : List Entry) :
    lastFrom b0 (x :: es) = lastFrom x.1 es := by
  cases es with
  | nil => rfl
  | cons y ys =>
    unfold lastFrom
    rw [List.getLast?_cons_cons]
    obtain ⟨z, hz⟩ : ∃ z, (y :: ys).getLast? = some z := by
      cases h : (y :: ys).getLast? with
      | some z => exact ⟨z, rfl⟩
      | none => exact absurd (List.getLast?_eq_none_iff.mp h) (by simp)
    rw [hz]
    rfl

theorem ledgerOk_append (limit b0 : Int) (es : List Entry) (e : Entry) :
    ledgerOk limit b0 (es ++ [e]) ↔
      ledgerOk limit b0 es ∧ stepOk limit (lastFrom b0 es) e := by
  induction es generalizing b0 with
  | nil =>
    obtain ⟨b', tx⟩ := e
    simp [ledgerOk, stepOk, lastFrom]
  | cons x es ih =>
    obtain ⟨xb, xtx⟩ := x
    simp only [List.cons_append, ledgerOk, List.append_eq, ih xb, lastFrom_cons]
    tauto

/-- The ledger invariant with wrapping arithmetic holds along any sequence of
requests applied from an empty account. -/
theorem ledgerOk_applyAll (limit : Int) (txs : List Tx) :
    ledgerOk limit 0 (applyAll limit txs) := by
  suffices h : ∀ (txs : List Tx) (es : List Entry), ledgerOk limit 0 es →
      ledgerOk limit 0 (txs.foldl (fun es tx =>
        match transact limit es tx with
        | some (_, es') => es'
        | none => es) es) by
    exact h txs [] trivial
  intro txs
  induction txs with
  | nil => intro es h; exact h
  | cons tx txs ih =>
    intro es h
    rw [List.foldl_cons]
    apply ih
    obtain ⟨v, k⟩ := tx
    cases k with
    | credit =>
      simp only [transact]
      rw [ledgerOk_append]
      exact ⟨h, rfl⟩
    | debit =>
      simp only [transact]
      by_cases hg : v ≤ wrap64 (lastBalance es + limit)
      · rw [if_pos hg]
        show ledgerOk limit 0
          (es ++ [(wrap64 (lastBalance es - v), ⟨v, TxKind.debit⟩)])
        rw [ledgerOk_append]
        exact ⟨h, rfl, hg⟩
      · rw [if_neg hg]
        exact h

theorem transact_none_iff (limit : Int) (es : List Entry) (tx : Tx) :
    transact limit es tx = none ↔
      tx.kind = TxKind.debit ∧ wrap64 (lastBalance es + limit) < tx.value := by
  obtain ⟨v, k⟩ := tx
  cases k with
  | credit => simp [transact]
  | debit =>
    simp only [transact]
    split
    · rename_i hg
      simp only [reduceCtorEq, false_iff, not_and, not_lt]
      intro _
      exact hg
    · rename_i hg
      push_neg at hg
      simp [hg]

/-! ### Server mirror (ring buffer) lemmas -/

theorem dropLast_take {α : Type _} (l : List α) (n : Nat) (h : n ≤ l.length) :
    (l.take n).dropLast = l.take (n - 1) := by
  rw [List.dropLast_eq_take, List.length_take, List.take_take]
  congr 1
  omega

/-- Correspondence between the server's in-memory mirror and the stored
ledger rows. -/
def SRel (a : SAccount) (es : List Entry) : Prop :=
  a.balance = lastBalance es ∧ a.ring = (es.reverse.take 10).map Prod.snd

theorem pushFront_rel (tx : Tx) (b' : Int) (es : List Entry) :
    pushFront 10 tx ((es.reverse.take 10).map Prod.snd)
      = ((es ++ [(b', tx)]).reverse.take 10).map Prod.snd := by
  have hrev : (es ++ [(b', tx)]).reverse = (b', tx) :: es.reverse := by
    simp
  rw [hrev, List.take_succ_cons, List.map_cons]
  unfold pushFront
  have hlen : ((es.reverse.take 10).map Prod.snd).length = min 10 es.length := by
    simp [List.length_take, Nat.min_comm]
  by_cases hc : 10 ≤ es.length
  · rw [if_pos (by rw [hlen]; omega)]
    congr 1
    rw [← List.map_dropLast, dropLast_take es.reverse 10 (by simp; omega)]
  · rw [if_neg (by rw [hlen]; omega)]
    congr 2
    rw [List.take_of_length_le (by simp; omega),
      List.take_of_length_le (by simp; omega)]

/-- The server's cached balance and ring buffer track the stored rows along
any sequence of requests. -/
theorem sapply_rel (limit : Int) :
    ∀ (txs : List Tx) (a : SAccount) (es : List Entry), SRel a es →
      SRel (txs.foldl (fun a tx => (stransact limit a tx).getD a) a)
        (txs.foldl (fun es tx =>
          match transact limit es tx with
          | some (_, es') => es'
          | none => es) es) := by
  intro txs
  induction txs with
  | nil => intro a es h; exact h
  | cons tx txs ih =>
    intro a es h
    rw [List.foldl_cons, List.foldl_cons]
    apply ih
    obtain ⟨hbal, hring⟩ := h
    obtain ⟨v, k⟩ := tx
    cases k with
    | credit =>
      simp only [stransact, transact, Option.getD_some]
      refine ⟨?_, ?_⟩
      · show wrap64 (a.balance + v) = lastBalance (es ++ [(wrap64 (lastBalance es + v), ⟨v, TxKind.credit⟩)])
        rw [hbal]
        show wrap64 (lastFrom 0 es + v)
            = lastFrom 0 (es ++ [(wrap64 (lastFrom 0 es + v), ⟨v, TxKind.credit⟩)])
        simp [lastFrom]
      · show pushFront 10 (⟨v, TxKind.credit⟩ : Tx) a.ring
            = ((es ++ ([(wrap64 (lastBalance es + v), ⟨v, TxKind.credit⟩)] : List Entry)).reverse.take 10).map
                Prod.snd
        rw [hring]
        exact pushFront_rel ⟨v, TxKind.credit⟩ _ es
    | debit =>
      simp only [stransact, transact, hbal]
      split
      · rename_i hg
        simp only [Option.getD_some]
        refine ⟨?_, ?_⟩
        · show wrap64 (lastBalance es - v)
              = lastBalance (es ++ [(wrap64 (lastBalance es - v), ⟨v, TxKind.debit⟩)])
          show wrap64 (lastFrom 0 es - v)
              = lastFrom 0 (es ++ [(wrap64 (lastFrom 0 es - v), ⟨v, TxKind.debit⟩)])
          simp [lastFrom]
        · show pushFront 10 (⟨v, TxKind.debit⟩ : Tx) a.ring
              = ((es ++ ([(wrap64 (lastBalance es - v), ⟨v, TxKind.debit⟩)] : List Entry)).reverse.take 10).map
                  Prod.snd
          rw [hring]
          exact pushFront_rel ⟨v, TxKind.debit⟩ _ es
      · simp only [Option.getD_none]
        exact ⟨hbal, hring⟩

theorem reduceOption_map_eq {α β : Type _} (l : List α) (f : α → Option β) :
    (l.map f).reduceOption = l.filterMap f := by
  unfold List.reduceOption
  rw [List.filterMap_map]
  rfl

/-! ### Claim theorems -/

/-- Claim C1, amended (corrected): for every account limit and every sequence
of requests applied through `transact` from balance 0, the stored
`balance_after` chain satisfies the credit/debit rule in wrapping `i64`
arithmetic — a stored credit has `b_i = wrap64 (b_{i-1} + v)`, a stored debit
has `b_i = wrap64 (b_{i-1} - v)` and passed the guard
`v ≤ wrap64 (b_{i-1} + L)` — and `transact` rejects (returning nothing, with
nothing appended) exactly the debits whose guard fails.  The claim's exact
(non-wrapping) equations fail on `i64` overflow, see the counterexample. -/
theorem C1_ledger_invariant :
    ∀ (limit : Int) (txs : List Tx),
      ledgerOk limit 0 (applyAll limit txs) ∧
      ∀ (es : List Entry) (tx : Tx),
        transact limit es tx = none ↔
          tx.kind = TxKind.debit ∧ wrap64 (lastBalance es + limit) < tx.value :=
  fun limit txs =>
    ⟨ledgerOk_applyAll limit txs, fun es tx => transact_none_iff limit es tx⟩

/-- Witness for C1's amended theorem at a concrete account: limit 1000, a
credit of 100 followed by a debit of 500, plus a concrete rejected debit. -/
theorem C1_ledger_invariant_witness :
    ledgerOk 1000 0
        (applyAll 1000 [⟨100, TxKind.credit⟩, ⟨500, TxKind.debit⟩]) ∧
      (transact 1000 [] ⟨2000, TxKind.debit⟩ = none ↔
        (⟨2000, TxKind.debit⟩ : Tx).kind = TxKind.debit ∧
          wrap64 (lastBalance [] + 1000) < (⟨2000, TxKind.debit⟩ : Tx).value) :=
  ⟨(C1_ledger_invariant 1000 [⟨100, TxKind.credit⟩, ⟨500, TxKind.debit⟩]).1,
    (C1_ledger_invariant 1000 [⟨100, TxKind.credit⟩, ⟨500, TxKind.debit⟩]).2
      [] ⟨2000, TxKind.debit⟩⟩

/-- Counterexample to claim C1 as stated: two accepted credits of
`i64::MAX` and 1 produce a stored balance of `i64::MIN` (the wrapped value),
not `i64::MAX + 1` as the exact credit equation would require. -/
theorem C1_counterexample :
    (applyAll 0 [⟨9223372036854775807, TxKind.credit⟩,
        ⟨1, TxKind.credit⟩]).map Prod.fst
      = [9223372036854775807, -9223372036854775808] ∧
    ((-9223372036854775808 : Int) ≠ 9223372036854775807 + 1) := by
  constructor
  · decide
  · decide

/-- Claim C8, amended (corrected): a credit is always accepted and computes
the new balance with wrapping `i64` addition, `b' = wrap64 (b + v)`; there is
no `ArithmeticOverflow` error anywhere in `transact` — overflow silently
wraps (release profile; a debug build would abort instead, still not an
error value). -/
theorem C8_credit_wraps (limit : Int) (es : List Entry) (tx : Tx)
    (h : tx.kind = TxKind.credit) :
    transact limit es tx
      = some (wrap64 (lastBalance es + tx.value),
          es ++ [(wrap64 (lastBalance es + tx.value), tx)]) := by
  obtain ⟨v, k⟩ := tx
  cases k
  · rfl
  · exact TxKind.noConfusion h

/-- Witness for C8's amended theorem: a concrete credit of 3 on an empty
account with limit 7. -/
theorem C8_credit_wraps_witness :
    transact 7 [] ⟨3, TxKind.credit⟩
      = some (wrap64 (lastBalance [] + (⟨3, TxKind.credit⟩ : Tx).value),
          [] ++ [(wrap64 (lastBalance [] + (⟨3, TxKind.credit⟩ : Tx).value),
            ⟨3, TxKind.credit⟩)]) :=
  C8_credit_wraps 7 [] ⟨3, TxKind.credit⟩ rfl

/-- Counterexample to claim C8 as stated: crediting 2 on a balance of
`i64::MAX` is accepted (two entries stored, no error of any kind) and stores
the wrapped balance `i64::MIN + 1`, not an `ArithmeticOverflow` failure. -/
theorem C8_counterexample :
    (applyAll 0 [⟨9223372036854775807, TxKind.credit⟩,
        ⟨2, TxKind.credit⟩]).length = 2 ∧
    (applyAll 0 [⟨9223372036854775807, TxKind.credit⟩,
        ⟨2, TxKind.credit⟩]).getLast?.map Prod.fst
      = some (-9223372036854775807) ∧
    ((-9223372036854775807 : Int) ≠ 9223372036854775807 + 2) := by
  refine ⟨by decide, by decide, by decide⟩

/-- Claim C9 (confirmed): after any sequence of requests from an empty
account, the statement data is at most 10 transactions, newest first — the
uncached variant (`last_transactions`, reading the store in reverse) returns
the stored rows newest-first capped at 10, with its i-th item being the
(len−1−i)-th accepted row; and the cached variant's ring buffer holds
exactly the newest-first 10-capped transaction list, with the cached balance
equal to the last stored balance. -/
theorem C9_statement_newest_first :
    ∀ (limit : Int) (txs : List Tx) (i : Nat),
      i < min 10 (applyAll limit txs).length →
      (lastTransactions (applyAll limit txs) 10).length ≤ 10 ∧
      (sapplyAll limit txs).ring
        = ((applyAll limit txs).reverse.take 10).map Prod.snd ∧
      (sapplyAll limit txs).balance = lastBalance (applyAll limit txs) ∧
      (lastTransactions (applyAll limit txs) 10)[i]?
        = (applyAll limit txs)[(applyAll limit txs).length - 1 - i]? := by
  intro limit txs i hi
  have hsrel := sapply_rel limit txs ⟨0, []⟩ [] ⟨rfl, rfl⟩
  refine ⟨?_, hsrel.2, hsrel.1, ?_⟩
  · unfold lastTransactions
    simp only [List.length_take, List.length_reverse]
    omega
  · unfold lastTransactions
    rw [List.getElem?_take_of_lt (by omega),
      List.getElem?_reverse (by omega)]

/-- Witness for C9 at a concrete account: two credits, first returned
statement item is the second accepted transaction. -/
theorem C9_statement_newest_first_witness :
    (lastTransactions (applyAll 0 [⟨1, TxKind.credit⟩, ⟨2, TxKind.credit⟩]) 10).length ≤ 10 ∧
    (sapplyAll 0 [⟨1, TxKind.credit⟩, ⟨2, TxKind.credit⟩]).ring
      = ((applyAll 0 [⟨1, TxKind.credit⟩, ⟨2, TxKind.credit⟩]).reverse.take 10).map Prod.snd ∧
    (sapplyAll 0 [⟨1, TxKind.credit⟩, ⟨2, TxKind.credit⟩]).balance
      = lastBalance (applyAll 0 [⟨1, TxKind.credit⟩, ⟨2, TxKind.credit⟩]) ∧
    (lastTransactions (applyAll 0 [⟨1, TxKind.credit⟩, ⟨2, TxKind.credit⟩]) 10)[0]?
      = (applyAll 0 [⟨1, TxKind.credit⟩, ⟨2, TxKind.credit⟩])[
          (applyAll 0 [⟨1, TxKind.credit⟩, ⟨2, TxKind.credit⟩]).length - 1 - 0]? :=
  C9_statement_newest_first 0 [⟨1, TxKind.credit⟩, ⟨2, TxKind.credit⟩] 0 (by decide)

/-- Claim C10 (confirmed): `Description::try_from` accepts exactly the
strings whose UTF-8 byte length is between 1 and 10; character count is
irrelevant, so a 7-character description made of 2-byte characters
(14 bytes) is rejected even though its character count is within 1..10. -/
theorem C10_description_byte_length :
    (∀ s : String, (Description.tryFrom s).isSome = true ↔
      1 ≤ s.utf8ByteSize ∧ s.utf8ByteSize ≤ 10) ∧
    Description.tryFrom "çãéíóúà" = none ∧
    "çãéíóúà".length = 7 ∧ 1 ≤ "çãéíóúà".length ∧
    "çãéíóúà".utf8ByteSize = 14 := by
  refine ⟨?_, by decide, by decide, by decide, by decide⟩
  intro s
  unfold Description.tryFrom
  split
  · rename_i hcond
    simp only [Option.isSome_none, Bool.false_eq_true, false_iff, not_and, not_le]
    intro _
    omega
  · rename_i hcond
    push_neg at hcond
    simp only [Option.isSome_some, true_iff]
    omega

/-- Claim C2 (confirmed): for any sequence of rows whose encodings fit within
stride `R` (and are nonempty, as the row-encoding contract requires of every
valid encoder), appending them all through `insert` on a fresh store,
reopening the store from the resulting bytes, and iterating forward yields
exactly the original rows in insertion order. -/
theorem C2_round_trip {α : Type _} (R : Nat) (xs : List α)
    (enc : α → List Nat) (dec : List Nat → Option α)
    (h8 : 8 ≤ R) (hR : R ≤ 4096)
    (hgood : ∀ x ∈ xs, goodRow R (enc x))
    (hdec : ∀ x ∈ xs, dec (enc x) = some x) :
    ∃ st', Db.insertAll R (Db.fromPath R []) (xs.map enc) = some st' ∧
      Db.rowsDecoded R dec (Db.fromPath R st'.file) = xs.map some := by
  obtain ⟨st', full', tl', h1, h2, h3⟩ :=
    Db.insertAll_inv R h8 hR (xs.map enc) (Db.fromPath R []) [] []
      (Inv_init R h8 hR)
      (by
        intro z hz
        rw [List.mem_map] at hz
        obtain ⟨a, ha, rfl⟩ := hz
        exact hgood a ha)
  refine ⟨st', h1, ?_⟩
  have hrows : Db.rows R st' = xs.map enc := by
    rw [Db.rows_inv R h8 hR st' full' tl' h2, h3]
    simp
  unfold Db.rowsDecoded
  rw [Db.rows_reopen, hrows, List.map_map]
  apply List.map_congr_left
  intro a ha
  simp only [Function.comp_apply]
  exact hdec a ha

/-- Witness for C2 at a concrete store: stride 2048, one row encoded as the
single byte 5, identity encoder, `some` decoder. -/
theorem C2_round_trip_witness :
    (∀ x ∈ [[5]], goodRow 2048 (id x)) ∧
    ∃ st', Db.insertAll 2048 (Db.fromPath 2048 []) ([[5]].map id) = some st' ∧
      Db.rowsDecoded 2048 some (Db.fromPath 2048 st'.file) = [[5]].map some :=
  ⟨by decide,
    C2_round_trip 2048 [[5]] id some (by norm_num) (by norm_num) (by decide)
      (fun x _ => rfl)⟩

/-- Claim C3 (code bug): after appending one row with stride 128 and
reopening, the tail page's `available_rows()` is 0, not
`4096/128 − 1 % (4096/128) = 31` as the claim (and the specification's tail
recovery law) requires: `from_bytes` keeps the full 4096-byte buffer as
`data` while `available_rows` is computed from `data.len()` rather than from
the `free` counter that `from_bytes` carefully reconstructs. -/
theorem C3_tail_recovery_code_result :
    (Db.insertAll 128 (Db.fromPath 128 []) [[42]]).map
        (fun st => Page.availableRows 128 (Db.fromPath 128 st.file).page)
      = some 0 ∧
    4096 / 128 - 1 % (4096 / 128) = 31 ∧ (0 : Nat) ≠ 31 := by
  obtain ⟨st', hins, hinv⟩ := Db.insert_step 128 (by norm_num) (by norm_num)
    (Db.fromPath 128 []) [] [] (Inv_init 128 (by norm_num) (by norm_num))
    [42] ⟨by norm_num, by norm_num⟩
  rw [if_neg (by norm_num)] at hinv
  obtain ⟨_, _, _, hfile, _⟩ := hinv
  simp only [List.nil_append] at hfile
  have hbs : blocksOf 128 [] [[42]] = [pageBlock 128 [[42]]] := by
    simp [blocksOf]
  have hplen : (pageBlock 128 [[42]]).length = 4096 := by
    apply pageBlock_length
    · intro r hr
      simp only [List.mem_singleton] at hr
      subst hr
      norm_num
    · norm_num
  have hfl : st'.file.length = 4096 := by
    rw [hfile, hbs]
    simp [hplen]
  refine ⟨?_, by norm_num, by norm_num⟩
  have hall : Db.insertAll 128 (Db.fromPath 128 []) [[42]] = some st' := by
    simp only [Db.insertAll, hins]
  have havail0 : Page.availableRows 128 (Db.fromPath 128 st'.file).page = 0 := by
    unfold Db.fromPath
    rw [if_pos (show 4096 ≤ st'.file.length by omega)]
    show Page.availableRows 128
      (Page.fromBytes 128 ((st'.file.drop (st'.file.length - 4096)).take 4096)) = 0
    unfold Page.availableRows Page.fromBytes
    simp only
    rw [List.length_take, List.length_drop, hfl]
    norm_num
  rw [hall]
  show some (Page.availableRows 128 (Db.fromPath 128 st'.file).page) = some 0
  rw [havail0]

/-- Claim C5, amended (corrected): when `free ≥ R` and `8 + |payload| ≤ R`,
`Page::insert` performs exactly the claimed write — the 8-byte big-endian
length, the payload and `R − 8 − |payload|` zero bytes at offset
`4096 − free`, decreasing `free` by exactly `R`; but in the remaining cases
(`free < R` or `8 + |payload| > R`) the function does not return a `NoSpace`
error as claimed — it dies in an unsigned-arithmetic underflow (a panic):
no error-returning path exists in the code. -/
theorem C5_page_insert_behavior (R : Nat) (p : Page) (payload : List Nat) :
    (8 + payload.length ≤ R ∧ R ≤ p.free →
      Page.insert R p payload
        = .ok ⟨writeAt p.data (4096 - p.free) (slotBytes R payload),
            p.free - R⟩) ∧
    (p.free < R ∨ R < 8 + payload.length →
      Page.insert R p payload = InsertOutcome.panic) := by
  constructor
  · rintro ⟨h1, h2⟩
    exact Page.insert_ok R p payload h1 h2
  · intro h
    unfold Page.insert
    rcases h with h | h
    · by_cases h2 : 8 + payload.length > R
      · rw [if_pos h2]
      · rw [if_neg h2, if_pos h]
    · rw [if_pos (by omega)]

/-- Witness for C5's amended theorem: a one-byte payload inserted into a
fresh page with stride 128 performs the described write. -/
theorem C5_page_insert_behavior_witness :
    (8 + ([42] : List Nat).length ≤ 128 ∧ 128 ≤ Page.new.free) ∧
    Page.insert 128 Page.new [42]
      = .ok ⟨writeAt Page.new.data (4096 - Page.new.free) (slotBytes 128 [42]),
          Page.new.free - 128⟩ :=
  ⟨⟨by decide, show (128 : Nat) ≤ 4096 by norm_num⟩,
    (C5_page_insert_behavior 128 Page.new [42]).1
      ⟨by decide, show (128 : Nat) ≤ 4096 by norm_num⟩⟩

/-- Counterexample to claim C5 as stated: a page filled by one stride-4096
row (a reachable state) has `free = 0 < R`; inserting into it does not
return a `NoSpace` error — the code panics. -/
theorem C5_counterexample :
    Page.insert 4096 Page.new [9] = .ok ⟨slotBytes 4096 [9], 0⟩ ∧
    Page.insert 4096 ⟨slotBytes 4096 [9], 0⟩ [10] = InsertOutcome.panic ∧
    InsertOutcome.panic ≠ InsertOutcome.err PageError.noSpace := by
  refine ⟨?_, ?_, by simp⟩
  · have h := Page.insert_ok 4096 Page.new [9] (by norm_num) (show (4096 : Nat) ≤ 4096 by norm_num)
    rw [h]
    show InsertOutcome.ok
        ⟨writeAt [] (4096 - 4096) (slotBytes 4096 [9]), 4096 - 4096⟩
      = InsertOutcome.ok ⟨slotBytes 4096 [9], 0⟩
    norm_num [writeAt_nil]
  · unfold Page.insert
    rw [if_neg (by norm_num)]
    rw [if_pos (show (⟨slotBytes 4096 [9], 0⟩ : Page).free < 4096 by norm_num)]

/-- Claim C7, amended (corrected): `Page::insert` performs no zero-length
check and returns no `SerializationError` for a zero-length payload — it
accepts it and writes a slot whose 8-byte length prefix is zero, i.e. an
all-zero slot, which subsequent iteration treats as end-of-page: the row is
written but invisible.  (`SerializationError` arises only when the external
serializer itself fails, which is a different event.) -/
theorem C7_zero_length_row (R : Nat) (h9 : 9 ≤ R) (hR : R ≤ 4096) :
    Page.insert R Page.new [] = .ok ⟨slotBytes R [], 4096 - R⟩ ∧
    slotBytes R [] = List.replicate R 0 ∧
    Page.rows R ⟨slotBytes R [], 4096 - R⟩ = [] ∧
    ∀ e : PageError, Page.insert R Page.new [] ≠ InsertOutcome.err e := by
  have hslot : slotBytes R [] = List.replicate R 0 := by
    simp only [slotBytes, List.length_nil, beBytes_zero, List.append_nil,
      Nat.add_zero]
    rw [← List.replicate_add]
    congr 1
    omega
  have hins : Page.insert R Page.new [] = .ok ⟨slotBytes R [], 4096 - R⟩ := by
    have h := Page.insert_ok R Page.new [] (by simp; omega) hR
    have hw : writeAt Page.new.data (4096 - Page.new.free) (slotBytes R [])
        = slotBytes R [] := by
      show writeAt [] (4096 - 4096) (slotBytes R []) = slotBytes R []
      norm_num [writeAt_nil]
    rw [hw] at h
    exact h
  refine ⟨hins, hslot, ?_, ?_⟩
  · show rowsFrom R (slotBytes R []) = []
    rw [hslot]
    exact rowsFrom_replicate_zero R R
  · intro e
    rw [hins]
    simp

/-- Witness for C7's amended theorem at stride 128. -/
theorem C7_zero_length_row_witness :
    (Page.insert 128 Page.new [] = .ok ⟨slotBytes 128 [], 4096 - 128⟩ ∧
      slotBytes 128 [] = List.replicate 128 0 ∧
      Page.rows 128 ⟨slotBytes 128 [], 4096 - 128⟩ = [] ∧
      ∀ e : PageError, Page.insert 128 Page.new [] ≠ InsertOutcome.err e) :=
  C7_zero_length_row 128 (by norm_num) (by norm_num)

/-- Counterexample to claim C7 as stated: inserting a zero-length payload at
stride 128 returns `Ok` (with the invisible all-zero slot written), not a
`SerializationError`. -/
theorem C7_counterexample :
    Page.insert 128 Page.new [] = .ok ⟨slotBytes 128 [], 3968⟩ ∧
    InsertOutcome.ok ⟨slotBytes 128 [], 3968⟩
      ≠ InsertOutcome.err PageError.serialization := by
  constructor
  · have h := Page.insert_ok 128 Page.new [] (by simp)
      (show (128 : Nat) ≤ 4096 by norm_num)
    rw [h]
    show InsertOutcome.ok
        ⟨writeAt [] (4096 - 4096) (slotBytes 128 []), 4096 - 128⟩
      = InsertOutcome.ok ⟨slotBytes 128 [], 3968⟩
    norm_num [writeAt_nil]
  · simp

/-- Claim C6 (confirmed): on any page-aligned stored file (every file the
store produces is a whole number of 4096-byte pages), reverse iteration
yields the concatenation of each page's rows reversed, taking the pages in
reverse order; and this equals the reverse of the forward iteration. -/
theorem C6_reverse_law (R : Nat) (f : List Nat) (hal : 4096 ∣ f.length) :
    Db.rowsReverse R (Db.fromPath R f)
        = ((Db.pages R (Db.fromPath R f)).reverse).flatMap
            (fun p => (Page.rows R p).reverse) ∧
    Db.rowsReverse R (Db.fromPath R f)
        = (Db.rows R (Db.fromPath R f)).reverse := by
  have hal' : 4096 ∣ (Db.fromPath R f).file.length := by
    rw [Db.fromPath_file]
    exact hal
  constructor
  · unfold Db.rowsReverse
    rw [Db.pagesReverse_eq R _ hal']
  · unfold Db.rowsReverse Db.rows
    rw [Db.pagesReverse_eq R _ hal', reverse_flatMap]

/-- Witness for C6 on a concrete one-page file holding one row. -/
theorem C6_reverse_law_witness :
    4096 ∣ (pageBlock 2048 [[5]]).length ∧
    (Db.rowsReverse 2048 (Db.fromPath 2048 (pageBlock 2048 [[5]]))
        = ((Db.pages 2048 (Db.fromPath 2048 (pageBlock 2048 [[5]]))).reverse).flatMap
            (fun p => (Page.rows 2048 p).reverse) ∧
      Db.rowsReverse 2048 (Db.fromPath 2048 (pageBlock 2048 [[5]]))
        = (Db.rows 2048 (Db.fromPath 2048 (pageBlock 2048 [[5]]))).reverse) := by
  have hlen : (pageBlock 2048 [[5]]).length = 4096 := by
    apply pageBlock_length
    · intro r hr
      simp only [List.mem_singleton] at hr
      subst hr
      norm_num
    · norm_num
  have hdvd : 4096 ∣ (pageBlock 2048 [[5]]).length := by
    rw [hlen]
  exact ⟨hdvd, C6_reverse_law 2048 (pageBlock 2048 [[5]]) hdvd⟩

/-- Claim C4, amended (corrected): the blocking and tokio variants agree when
driven from an empty file — the same insert sequence produces the same
on-disk bytes (or fails on both sides) — and on any shared file contents
forward iteration relates as: the blocking variant yields exactly the
successfully decoded rows of the tokio variant, silently dropping the decode
errors that the tokio variant yields as error items.  They are not
semantically identical in general: the blocking `from_path` does not
reconstruct the tail page, so reopening a nonempty file and appending
produces different bytes (see the counterexample), and decode errors are
dropped rather than yielded. -/
theorem C4_variants_agree_from_empty {α : Type _} (R : Nat)
    (xs : List (List Nat)) (dec : List Nat → Option α) (b : BDb) (t : Db)
    (hfile : b.file = t.file) :
    Option.map BDb.file (BDb.insertAll R (BDb.fromPath []) xs)
        = Option.map Db.file (Db.insertAll R (Db.fromPath R []) xs) ∧
    BDb.rowsDecoded R dec b = (Db.rowsDecoded R dec t).reduceOption := by
  constructor
  · rcases insertAll_rel R xs (BDb.fromPath []) (Db.fromPath R [])
        (Rel_init R) with ⟨hb, ht⟩ | ⟨b', t', hb, ht, hrel⟩
    · rw [hb, ht]
      rfl
    · rw [hb, ht, Option.map_some', Option.map_some', hrel.1]
  · unfold BDb.rowsDecoded Db.rowsDecoded BDb.rows Db.rows Page.rows
      BDb.pages Db.pages
    rw [hfile, reduceOption_map_eq]

/-- Witness for C4's amended theorem at stride 2048, one row, fresh stores. -/
theorem C4_variants_agree_witness :
    (BDb.fromPath []).file = (Db.fromPath 2048 []).file ∧
    (Option.map BDb.file (BDb.insertAll 2048 (BDb.fromPath []) [[5]])
        = Option.map Db.file (Db.insertAll 2048 (Db.fromPath 2048 []) [[5]]) ∧
      BDb.rowsDecoded 2048 some (BDb.fromPath [])
        = (Db.rowsDecoded 2048 some (Db.fromPath 2048 [])).reduceOption) :=
  ⟨rfl, C4_variants_agree_from_empty 2048 [[5]] some (BDb.fromPath [])
    (Db.fromPath 2048 []) rfl⟩

/-- Evaluation helper: `tokio::Db::insert` once the page insert outcome and
the buffer bound are known. -/
theorem Db.insert_eval (R : Nat) (f : List Nat) (pos : Nat) (pg : Page)
    (y d : List Nat) (fr : Nat)
    (hp : Page.insert R pg y = .ok ⟨d, fr⟩) (hlen : d.length ≤ 4096) :
    Db.insert R ⟨f, pos, pg⟩ y =
      (if (4096 - d.length) / R = 0 then
        some ⟨writeAt f pos (d ++ List.replicate (4096 - d.length) 0),
          pos + 4096, Page.new⟩
       else if 4096 ≤ (writeAt f pos
          (d ++ List.replicate (4096 - d.length) 0)).length then
        some ⟨writeAt f pos (d ++ List.replicate (4096 - d.length) 0),
          (writeAt f pos (d ++ List.replicate (4096 - d.length) 0)).length - 4096,
          ⟨d, fr⟩⟩
       else none) := by
  unfold Db.insert
  rw [show Page.insert R (⟨f, pos, pg⟩ : Db).page y = Page.insert R pg y from rfl,
    hp]
  dsimp only
  rw [if_neg (show ¬4096 < d.length by omega)]
  rfl

/-- Evaluation helper: the blocking `Db::insert` once the page insert result
and the buffer bound are known. -/
theorem BDb.insert_eval_blocking (R : Nat) (f : List Nat) (pos : Nat) (pg : BPage)
    (y d : List Nat)
    (hp : BPage.insert R pg y = some ⟨d⟩) (hlen : d.length ≤ 4096) :
    BDb.insert R ⟨f, pos, pg⟩ y =
      (if (4096 - d.length) / R = 0 then
        some ⟨writeAt f pos (d ++ List.replicate (4096 - d.length) 0),
          pos + 4096, BPage.new⟩
       else if 4096 ≤ (writeAt f pos
          (d ++ List.replicate (4096 - d.length) 0)).length then
        some ⟨writeAt f pos (d ++ List.replicate (4096 - d.length) 0),
          (writeAt f pos (d ++ List.replicate (4096 - d.length) 0)).length - 4096,
          ⟨d⟩⟩
       else none) := by
  unfold BDb.insert
  rw [show BPage.insert R (⟨f, pos, pg⟩ : BDb).page y = BPage.insert R pg y from rfl,
    hp]
  dsimp only
  rw [if_neg (show ¬4096 < d.length by omega)]
  rfl

/-- Counterexample to claim C4 as stated: reopen a one-page file whose tail
page is half full (stride 2048, one stored row) and append one more row.
The tokio variant reconstructs the tail page and rewrites it in place — the
file stays 4096 bytes; the blocking variant starts from an empty in-memory
tail page at end of file and appends a whole new page — 8192 bytes.  Same
path state, same operation, different on-disk bytes. -/
theorem C4_counterexample :
    Option.map (fun st => st.file.length)
        (Db.insert 2048 (Db.fromPath 2048 (pageBlock 2048 [[42]])) [7])
      = some 4096 ∧
    Option.map (fun st => st.file.length)
        (BDb.insert 2048 (BDb.fromPath (pageBlock 2048 [[42]])) [7])
      = some 8192 ∧
    (4096 : Nat) ≠ 8192 := by
  have hgood : ∀ r ∈ [[42]], goodRow 2048 r := by
    intro r hr
    simp only [List.mem_singleton] at hr
    subst hr
    exact ⟨by norm_num, by norm_num⟩
  have hplen : (pageBlock 2048 [[42]]).length = 4096 :=
    pageBlock_length 2048 [[42]] (fun r hr => (hgood r hr).2) (by norm_num)
  have hlead : leadingRows 2048 (pageBlock 2048 [[42]]) = 1 :=
    leadingRows_pageData 2048 [[42]] (4096 - [[42]].length * 2048)
      (by norm_num) (by norm_num) hgood
  have htake : ((pageBlock 2048 [[42]]).drop
      ((pageBlock 2048 [[42]]).length - 4096)).take 4096 = pageBlock 2048 [[42]] := by
    rw [hplen]
    norm_num
    exact le_of_eq hplen
  have hfp : Db.fromPath 2048 (pageBlock 2048 [[42]])
      = ⟨pageBlock 2048 [[42]], 0, ⟨pageBlock 2048 [[42]], 2048⟩⟩ := by
    unfold Db.fromPath
    rw [if_pos (le_of_eq hplen.symm), htake]
    unfold Page.fromBytes
    rw [hlead]
    rw [show (⟨pageBlock 2048 [[42]], (pageBlock 2048 [[42]]).length - 4096,
        ⟨pageBlock 2048 [[42]], 4096 - 1 * 2048⟩⟩ : Db)
      = ⟨pageBlock 2048 [[42]], (pageBlock 2048 [[42]]).length - 4096,
        ⟨pageBlock 2048 [[42]], 2048⟩⟩ from by norm_num]
    rw [hplen]
  have hslot7 : (slotBytes 2048 [7]).length = 2048 :=
    slotBytes_length 2048 [7] (by norm_num)
  have hins : Page.insert 2048 ⟨pageBlock 2048 [[42]], 2048⟩ [7]
      = .ok ⟨writeAt (pageBlock 2048 [[42]]) 2048 (slotBytes 2048 [7]), 0⟩ :=
    Page.insert_ok 2048 ⟨pageBlock 2048 [[42]], 2048⟩ [7] (by norm_num)
      (show (2048 : Nat) ≤ 2048 from le_refl 2048)
  have hdlen :
      (writeAt (pageBlock 2048 [[42]]) 2048 (slotBytes 2048 [7])).length = 4096 := by
    rw [writeAt_length, hplen, hslot7]
    omega
  have hflen : (writeAt (pageBlock 2048 [[42]]) 0
      (writeAt (pageBlock 2048 [[42]]) 2048 (slotBytes 2048 [7])
        ++ List.replicate (4096 - (writeAt (pageBlock 2048 [[42]]) 2048
            (slotBytes 2048 [7])).length) 0)).length = 4096 := by
    rw [writeAt_length, List.length_append, List.length_replicate, hdlen, hplen]
    omega
  refine ⟨?_, ?_, by norm_num⟩
  · have heval := Db.insert_eval 2048 (pageBlock 2048 [[42]]) 0
      ⟨pageBlock 2048 [[42]], 2048⟩ [7]
      (writeAt (pageBlock 2048 [[42]]) 2048 (slotBytes 2048 [7])) 0 hins
      (le_of_eq hdlen)
    rw [if_pos (show (4096 - (writeAt (pageBlock 2048 [[42]]) 2048
        (slotBytes 2048 [7])).length) / 2048 = 0 by simp only [hdlen])]
      at heval
    simp only [hfp, heval, Option.map_some', hflen]
  · have hbp : BPage.insert 2048 BPage.new [7] = some ⟨slotBytes 2048 [7]⟩ := by
      unfold BPage.insert
      rw [if_neg (by norm_num)]
      rfl
    have heval := BDb.insert_eval_blocking 2048 (pageBlock 2048 [[42]])
      (pageBlock 2048 [[42]]).length BPage.new [7] (slotBytes 2048 [7]) hbp
      (by rw [hslot7]; norm_num)
    rw [if_neg (show ¬(4096 - (slotBytes 2048 [7]).length) / 2048 = 0 by
      simp only [hslot7]
      norm_num)] at heval
    rw [if_pos (show 4096 ≤ (writeAt (pageBlock 2048 [[42]])
        (pageBlock 2048 [[42]]).length (slotBytes 2048 [7]
          ++ List.replicate (4096 - (slotBytes 2048 [7]).length) 0)).length by
      rw [writeAt_length, List.length_append, List.length_replicate, hslot7, hplen]
      omega)] at heval
    have hwlen : (writeAt (pageBlock 2048 [[42]]) (pageBlock 2048 [[42]]).length
        (slotBytes 2048 [7]
          ++ List.replicate (4096 - (slotBytes 2048 [7]).length) 0)).length = 8192 := by
      rw [writeAt_length, List.length_append, List.length_replicate, hslot7, hplen]
      omega
    simp only [show BDb.fromPath (pageBlock 2048 [[42]])
        = (⟨pageBlock 2048 [[42]], (pageBlock 2048 [[42]]).length, BPage.new⟩ : BDb)
        from rfl,
      heval, Option.map_some', hwlen]

end Espora